import Mathlib

/-!
Shallow embedding of the bit-precision query-engine core of the XLS IR
(src/xls/passes/query_engine.cc) and of the type-interning part of the IR
container (src/xls/ir/package.cc), together with proofs of the behavioural
claims about them.

Modelling conventions:
* machine integers (`int64_t`) are modelled as `Nat` (all quantities involved
  are non-negative: bit counts, indices, sizes);
* `Bits` (a fixed-width bit vector) is modelled as `List Bool`, index 0 being
  the least-significant bit, exactly as in `xls::Bits`;
* `std::optional` / `absl::StatusOr` become `Option`;
* a `LeafTypeTree<T>` is modelled by the list of its leaf elements in
  depth-first order (`elements()` in the C++ code); the leaf types are
  recovered from the node's type via `leafTypes`;
* C++ pointer identity of `Node*` is modelled by a numeric `id` field;
  pointer identity of interned `Type*` objects is modelled by an index into
  an arena owned by the `Package`;
* `CHECK`-style fatal preconditions have no recoverable behaviour in the
  source; where a definition is only ever invoked with the precondition
  established, out-of-contract inputs are given an arbitrary total value
  (noted at each definition).

Helpers of this repository that are declared outside the provided sources
(ternary_ops, interval_ops, TypeHasToken, LeafTypeTreeToValue, IsOwnedType)
are modelled from the specification's stated contracts; each such definition
carries a doc comment starting with `Modelled from the spec:`.
-/

namespace xls

/-- Three-valued abstraction of one bit (`xls::TernaryValue`). -/
inductive TernaryValue where
  | kKnownZero
  | kKnownOne
  | kUnknown
  deriving DecidableEq, Repr

/-- Ordered sequence of ternary values for one leaf (`xls::TernaryVector`),
index 0 is the least-significant bit. -/
abbrev TernaryVector := List TernaryValue

/-- IR type descriptors (`xls::Type`): bit vectors, tokens, tuples and
arrays.  (Function types never type a computation node; they appear only in
the package interner model below.) -/
inductive Ty where
  | bits (width : Nat)
  | token
  | tuple (elems : List Ty)
  | array (size : Nat) (elem : Ty)
  deriving Repr

mutual

def tyDecEq : (a b : Ty) → Decidable (a = b)
  | .bits w, .bits w' =>
      if h : w = w' then .isTrue (by rw [h]) else .isFalse (by intro hc; cases hc; exact h rfl)
  | .bits _, .token => .isFalse (fun h => Ty.noConfusion h)
  | .bits _, .tuple _ => .isFalse (fun h => Ty.noConfusion h)
  | .bits _, .array _ _ => .isFalse (fun h => Ty.noConfusion h)
  | .token, .bits _ => .isFalse (fun h => Ty.noConfusion h)
  | .token, .token => .isTrue rfl
  | .token, .tuple _ => .isFalse (fun h => Ty.noConfusion h)
  | .token, .array _ _ => .isFalse (fun h => Ty.noConfusion h)
  | .tuple _, .bits _ => .isFalse (fun h => Ty.noConfusion h)
  | .tuple _, .token => .isFalse (fun h => Ty.noConfusion h)
  | .tuple ts, .tuple ts' =>
      match tyListDecEq ts ts' with
      | .isTrue h => .isTrue (by rw [h])
      | .isFalse h => .isFalse (by intro hc; cases hc; exact h rfl)
  | .tuple _, .array _ _ => .isFalse (fun h => Ty.noConfusion h)
  | .array _ _, .bits _ => .isFalse (fun h => Ty.noConfusion h)
  | .array _ _, .token => .isFalse (fun h => Ty.noConfusion h)
  | .array _ _, .tuple _ => .isFalse (fun h => Ty.noConfusion h)
  | .array n t, .array n' t' =>
      if h : n = n' then
        match tyDecEq t t' with
        | .isTrue h2 => .isTrue (by rw [h, h2])
        | .isFalse h2 => .isFalse (by intro hc; cases hc; exact h2 rfl)
      else .isFalse (by intro hc; cases hc; exact h rfl)

def tyListDecEq : (a b : List Ty) → Decidable (a = b)
  | [], [] => .isTrue rfl
  | [], _ :: _ => .isFalse (fun h => List.noConfusion h)
  | _ :: _, [] => .isFalse (fun h => List.noConfusion h)
  | t :: ts, t' :: ts' =>
      match tyDecEq t t', tyListDecEq ts ts' with
      | .isTrue h1, .isTrue h2 => .isTrue (by rw [h1, h2])
      | .isFalse h1, _ => .isFalse (by intro hc; cases hc; exact h1 rfl)
      | _, .isFalse h2 => .isFalse (by intro hc; cases hc; exact h2 rfl)

end

instance : DecidableEq Ty := tyDecEq

/-- `Type::IsToken()`. -/
def Ty.isToken : Ty → Bool
  | .token => true
  | _ => false

mutual

/-- Leaf types of a type in depth-first order, mirroring the leaf order of a
`LeafTypeTree` built over the type. -/
def leafTypes : Ty → List Ty
  | .bits w => [.bits w]
  | .token => [.token]
  | .tuple ts => leafTypesList ts
  | .array n t => (List.replicate n (leafTypes t)).flatten

def leafTypesList : List Ty → List Ty
  | [] => []
  | t :: ts => leafTypes t ++ leafTypesList ts

end

mutual

/-- Modelled from the spec: `TypeHasToken` (declared in xls/ir/type.h, which
is not among the provided sources) — whether a type transitively contains a
token leaf. -/
def tyHasToken : Ty → Bool
  | .bits _ => false
  | .token => true
  | .tuple ts => tyHasTokenList ts
  | .array _ t => tyHasToken t

def tyHasTokenList : List Ty → Bool
  | [] => false
  | t :: ts => tyHasToken t || tyHasTokenList ts

end

mutual

/-- Modelled from the spec: `Type::GetFlatBitCount` (declared in
xls/ir/type.h, not among the provided sources) — the total number of bits in
a type: the width for a bit-vector leaf, zero for a token leaf, and the sum
over components for aggregates. -/
def tyFlatBitCount : Ty → Nat
  | .bits w => w
  | .token => 0
  | .tuple ts => tyFlatBitCountList ts
  | .array n t => n * tyFlatBitCount t

def tyFlatBitCountList : List Ty → Nat
  | [] => 0
  | t :: ts => tyFlatBitCount t + tyFlatBitCountList ts

end

/-- A value-producing point in a function's computation graph (`xls::Node`).
Pointer identity is modelled by the `id` field; the node's fixed type by
`ty`. -/
structure Node where
  id : Nat
  ty : Ty
  deriving DecidableEq, Repr

/-- `Node::BitCountOrDie()`: the width of a bits-typed node.  The source
`CHECK`-fails on non-bits nodes; the model returns 0 there (all uses below
are guarded by a bits-typed hypothesis). -/
def Node.bitCount (n : Node) : Nat :=
  match n.ty with
  | .bits w => w
  | _ => 0

/-- Addresses one bit of a node (`xls::TreeBitLocation`): the node, the leaf
position inside the node's type tree (flattened depth-first index; the C++
empty tree index used for scalar bits-typed nodes is index 0), and the bit
index within that leaf. -/
structure TreeBitLocation where
  node : Node
  treeIndex : Nat
  bitIndex : Nat

/-- Concrete IR values (`xls::Value`): bit vectors, tokens, tuples, arrays. -/
inductive Value where
  | bits (b : List Bool)
  | token
  | tuple (elems : List Value)
  | array (elems : List Value)
  deriving Repr

/-- Unsigned integer denoted by a bit vector, least-significant bit first
(`Bits::ToUint64`, without the width-64 restriction). -/
def bitsToNat : List Bool → Nat
  | [] => 0
  | b :: rest => (if b then 1 else 0) + 2 * bitsToNat rest

/-- Modelled from the spec: `bits_ops::UEqual` (xls/ir/bits_ops.h, not among
the provided sources) — unsigned comparison of two bit vectors, possibly of
different widths. -/
def bitsUEqual (a b : List Bool) : Bool :=
  bitsToNat a == bitsToNat b

/-- Modelled from the spec: `ternary_ops::IsFullyKnown` (xls/ir/ternary.h,
not among the provided sources) — every bit of the vector is known. -/
def ternaryIsFullyKnown (v : TernaryVector) : Bool :=
  v.all (fun t => t != TernaryValue.kUnknown)

/-- Modelled from the spec: `ternary_ops::IsKnownZero` — every bit of the
vector is known to be zero. -/
def ternaryIsKnownZero (v : TernaryVector) : Bool :=
  v.all (fun t => t == TernaryValue.kKnownZero)

/-- Modelled from the spec: `ternary_ops::IsKnownOne` — every bit of the
vector is known to be one. -/
def ternaryIsKnownOne (v : TernaryVector) : Bool :=
  v.all (fun t => t == TernaryValue.kKnownOne)

/-- Modelled from the spec: `ternary_ops::ToKnownBitsValues` — the concrete
bit vector assembled from the known bits (only invoked on fully-known
vectors). -/
def ternaryToKnownBitsValues (v : TernaryVector) : List Bool :=
  v.map (fun t => t == TernaryValue.kKnownOne)

mutual

/-- Modelled from the spec: `LeafTypeTreeToValue` (xls/ir/value_utils.h, not
among the provided sources) — reassembles a value tree in the shape of the
type from the list of leaf values in depth-first order.  Returns the
assembled value together with the leaves left unconsumed; `none` when the
leaf list is too short (cannot happen for a shape-correct leaf tree). -/
def valueFromLeaves : Ty → List Value → Option (Value × List Value)
  | .bits _, l :: rest => some (l, rest)
  | .bits _, [] => none
  | .token, l :: rest => some (l, rest)
  | .token, [] => none
  | .tuple ts, leaves =>
      match valuesFromLeaves ts leaves with
      | some (vs, rest) => some (Value.tuple vs, rest)
      | none => none
  | .array n t, leaves =>
      match arrayFromLeaves n t leaves with
      | some (vs, rest) => some (Value.array vs, rest)
      | none => none

def valuesFromLeaves : List Ty → List Value → Option (List Value × List Value)
  | [], leaves => some ([], leaves)
  | t :: ts, leaves =>
      match valueFromLeaves t leaves with
      | some (v, rest) =>
        match valuesFromLeaves ts rest with
        | some (vs, rest2) => some (v :: vs, rest2)
        | none => none
      | none => none

def arrayFromLeaves : Nat → Ty → List Value → Option (List Value × List Value)
  | 0, _, leaves => some ([], leaves)
  | n + 1, t, leaves =>
      match valueFromLeaves t leaves with
      | some (v, rest) =>
        match arrayFromLeaves n t rest with
        | some (vs, rest2) => some (v :: vs, rest2)
        | none => none
      | none => none

end

/-- Modelled from the spec: `LeafTypeTreeToValue` proper — the assembled
value for a full leaf list. -/
def leafTypeTreeToValue (ty : Ty) (leaves : List Value) : Option Value :=
  match valueFromLeaves ty leaves with
  | some (v, _) => some v
  | none => none

/-- The per-leaf value list built inside `QueryEngine::KnownValue(Node*)`:
token leaves map to the token value, bits leaves to the concrete vector of
their known bits. -/
def assembledKnownLeaves (ty : Ty) (tern : List TernaryVector) : List Value :=
  ((leafTypes ty).zip tern).map (fun p =>
    if p.1.isToken then Value.token else Value.bits (ternaryToKnownBitsValues p.2))

/-- The abstract query engine (`xls::QueryEngine`), reduced to the two
primitive facts every derived query in query_engine.cc is computed from:
whether a node is tracked, and the tracked per-leaf ternary fact.
`GetTernary` yields the `elements()` list of the `LeafTypeTree`. -/
structure QueryEngine where
  IsTracked : Node → Bool
  GetTernary : Node → Option (List TernaryVector)

namespace QueryEngine

/-- `QueryEngine::KnownValue(const TreeBitLocation&)`: absent unless the
node is tracked, a ternary fact is present, and the addressed ternary entry
is known; otherwise the known bit.  Out-of-range leaf/bit indices (a fatal
precondition violation in the source) read as unknown. -/
def KnownValueBit (e : QueryEngine) (bit : TreeBitLocation) : Option Bool :=
  if !(e.IsTracked bit.node) then none
  else
    match e.GetTernary bit.node with
    | none => none
    | some ternary =>
      match (ternary.getD bit.treeIndex []).getD bit.bitIndex TernaryValue.kUnknown with
      | .kUnknown => none
      | .kKnownZero => some false
      | .kKnownOne => some true

/-- `QueryEngine::IsOne`. -/
def IsOne (e : QueryEngine) (bit : TreeBitLocation) : Bool :=
  match e.KnownValueBit bit with
  | none => false
  | some b => b

/-- `QueryEngine::IsZero`. -/
def IsZero (e : QueryEngine) (bit : TreeBitLocation) : Bool :=
  match e.KnownValueBit bit with
  | none => false
  | some b => !b

/-- `QueryEngine::KnownValue(Node*)`: the all-or-nothing node-level value:
absent unless the node is tracked and every leaf's ternary vector is fully
known; otherwise the value assembled leaf by leaf (token leaves to the token
value, bits leaves to their known bits) in the shape of the node's type. -/
def KnownValue (e : QueryEngine) (node : Node) : Option Value :=
  if !(e.IsTracked node) then none
  else
    match e.GetTernary node with
    | none => none
    | some ternary =>
      if !(ternary.all ternaryIsFullyKnown) then none
      else leafTypeTreeToValue node.ty (assembledKnownLeaves node.ty ternary)

/-- `QueryEngine::KnownValueAsBits`: bits-typed nodes only (fatal
precondition in the source); extracts the scalar from the node-level known
value.  A non-bits result (impossible for a shape-correct fact on a
bits-typed node) reads as absent. -/
def KnownValueAsBits (e : QueryEngine) (node : Node) : Option (List Bool) :=
  if !(e.IsTracked node) then none
  else
    match e.KnownValue node with
    | none => none
    | some (Value.bits b) => some b
    | some _ => none

/-- `QueryEngine::IsAllZeros`. -/
def IsAllZeros (e : QueryEngine) (node : Node) : Bool :=
  if !(e.IsTracked node) || tyHasToken node.ty then false
  else
    match e.GetTernary node with
    | none => false
    | some ternary => ternary.all ternaryIsKnownZero

/-- `QueryEngine::IsAllOnes`. -/
def IsAllOnes (e : QueryEngine) (node : Node) : Bool :=
  if !(e.IsTracked node) || tyHasToken node.ty then false
  else
    match e.GetTernary node with
    | none => false
    | some ternary => ternary.all ternaryIsKnownOne

/-- `QueryEngine::IsFullyKnown`. -/
def IsFullyKnown (e : QueryEngine) (node : Node) : Bool :=
  if !(e.IsTracked node) || tyHasToken node.ty then false
  else
    match e.GetTernary node with
    | none => false
    | some ternary => ternary.all ternaryIsFullyKnown

/-- `QueryEngine::MaxUnsignedValue`: per bit position, 0 exactly when the
bit is known-zero, else 1. -/
def MaxUnsignedValue (e : QueryEngine) (node : Node) : List Bool :=
  (List.range node.bitCount).map (fun i =>
    if e.IsZero ⟨node, 0, i⟩ then false else true)

/-- `QueryEngine::MinUnsignedValue`: per bit position, 1 exactly when the
bit is known-one, else 0. -/
def MinUnsignedValue (e : QueryEngine) (node : Node) : List Bool :=
  (List.range node.bitCount).map (fun i => e.IsOne ⟨node, 0, i⟩)

/-- The `get_known_bit` lambda inside
`QueryEngine::NodesKnownUnsignedNotEquals`: out-of-range positions of the
narrower operand read as known-zero (conceptual zero-extension). -/
def getKnownBit (e : QueryEngine) (n : Node) (index : Nat) : TernaryValue :=
  if n.bitCount ≤ index then .kKnownZero
  else if e.IsZero ⟨n, 0, index⟩ then .kKnownZero
  else if e.IsOne ⟨n, 0, index⟩ then .kKnownOne
  else .kUnknown

/-- `QueryEngine::NodesKnownUnsignedNotEquals`: scans all bit positions up
to the wider width for one where both sides are individually known and
differ. -/
def NodesKnownUnsignedNotEquals (e : QueryEngine) (a b : Node) : Bool :=
  (List.range (max a.bitCount b.bitCount)).any (fun i =>
    let aBit := e.getKnownBit a i
    let bBit := e.getKnownBit b i
    aBit != bBit && aBit != TernaryValue.kUnknown && bBit != TernaryValue.kUnknown)

/-- `QueryEngine::NodesKnownUnsignedEquals`: same node identity, or both
fully-known concrete values comparing unsigned-equal. -/
def NodesKnownUnsignedEquals (e : QueryEngine) (a b : Node) : Bool :=
  if a = b then true
  else
    match e.KnownValueAsBits a with
    | none => false
    | some aValue =>
      match e.KnownValueAsBits b with
      | none => false
      | some bValue => bitsUEqual aValue bValue

end QueryEngine

/-- A union of closed unsigned ranges over a fixed bit width
(`xls::IntervalSet`), modelled as the list of its (lower, upper) range
bounds. -/
abbrev IntervalSet := List (Nat × Nat)

/-- Modelled from the spec: `IntervalSet::Maximal` — the single range
covering every representable value of the width. -/
def IntervalSet.Maximal (width : Nat) : IntervalSet :=
  [(0, 2 ^ width - 1)]

/-- A concrete unsigned value lies in some range of the interval set. -/
def intervalSetCovers (s : IntervalSet) (x : Nat) : Prop :=
  ∃ p ∈ s, p.1 ≤ x ∧ x ≤ p.2

/-- All bit-vector assignments of a given length, least-significant bit
first; the enumeration domain of the bounded ternary-to-interval
conversion. -/
def allAssignments : Nat → List (List Bool)
  | 0 => [[]]
  | n + 1 =>
      (allAssignments n).map (fun σ => false :: σ) ++
        (allAssignments n).map (fun σ => true :: σ)

/-- One concretization of a ternary vector: known bits take their known
value, unknown bits listed in `asgn` take their assigned value, all other
unknown bits take `fill`. -/
def ternaryConcretize (tv : TernaryVector) (asgn : List (Nat × Bool)) (fill : Bool) :
    List Bool :=
  (List.range tv.length).map (fun i =>
    match tv.getD i TernaryValue.kUnknown with
    | .kKnownOne => true
    | .kKnownZero => false
    | .kUnknown => (asgn.lookup i).getD fill)

/-- The positions of the unknown bits of a ternary vector, ascending. -/
def unknownPositions (tv : TernaryVector) : List Nat :=
  (List.range tv.length).filter (fun i =>
    tv.getD i TernaryValue.kUnknown == TernaryValue.kUnknown)

/-- Modelled from the spec: `interval_ops::FromTernary`
(xls/ir/interval_ops.h, not among the provided sources) — the bounded
ternary-to-interval conversion.  The `maxIntervalBits` most-significant
unknown bits are enumerated exactly (one range per assignment, so at most
`2 ^ maxIntervalBits` ranges); the remaining, less-significant unknown bits
are treated as fully free inside each range (lower bound fills them with 0,
upper bound with 1). -/
def fromTernary (tv : TernaryVector) (maxIntervalBits : Nat) : IntervalSet :=
  let unknowns := unknownPositions tv
  let enumerated := unknowns.drop (unknowns.length - maxIntervalBits)
  (allAssignments enumerated.length).map (fun σ =>
    (bitsToNat (ternaryConcretize tv (enumerated.zip σ) false),
     bitsToNat (ternaryConcretize tv (enumerated.zip σ) true)))

/-- The interval cap of `QueryEngine::GetIntervals` (`kMaxTernaryIntervalBits`
in query_engine.cc): each leaf's interval set has at most
`2 ^ kMaxTernaryIntervalBits` separate intervals. -/
def kMaxTernaryIntervalBits : Nat := 4

namespace QueryEngine

/-- `QueryEngine::GetIntervals`: with no ternary fact, every leaf maps to
the maximal interval set for its flat bit width; otherwise each leaf's
ternary vector is converted independently by the bounded conversion. -/
def GetIntervals (e : QueryEngine) (node : Node) : List IntervalSet :=
  match e.GetTernary node with
  | none => (leafTypes node.ty).map (fun leafTy => IntervalSet.Maximal (tyFlatBitCount leafTy))
  | some tern => tern.map (fun tv => fromTernary tv kMaxTernaryIntervalBits)

end QueryEngine

/-- Opaque handle for the function passed to `QueryEngine::Populate`. -/
structure FunctionBase where
  id : Nat

/-- Result of a successful `Populate` (`xls::ReachedFixpoint`). -/
inductive ReachedFixpoint where
  | Changed
  | Unchanged

/-- A specialization context (`xls::PredicateState`), opaque to the engine. -/
structure PredicateState where
  id : Nat

/-- The full virtual query surface of `xls::QueryEngine` (everything the
forwarding decorator overrides except `Populate` and
`SpecializeGivenPredicate`), one field per virtual method. -/
structure QueryMethods where
  isTracked : Node → Bool
  getTernary : Node → Option (List TernaryVector)
  getIntervals : Node → List IntervalSet
  atMostOneTrue : List TreeBitLocation → Bool
  atLeastOneTrue : List TreeBitLocation → Bool
  implies : TreeBitLocation → TreeBitLocation → Bool
  impliedNodeValue : List (TreeBitLocation × Bool) → Node → Option (List Bool)
  impliedNodeTernary : List (TreeBitLocation × Bool) → Node → Option TernaryVector
  knownEquals : TreeBitLocation → TreeBitLocation → Bool
  knownNotEquals : TreeBitLocation → TreeBitLocation → Bool
  atMostOneBitTrue : Node → Bool
  atLeastOneBitTrue : Node → Bool
  exactlyOneBitTrue : Node → Bool
  isKnown : TreeBitLocation → Bool
  knownValueBit : TreeBitLocation → Option Bool
  knownValueNode : Node → Option Value
  isAllZeros : Node → Bool
  isAllOnes : Node → Bool
  isFullyKnown : Node → Bool
  maxUnsignedValue : Node → List Bool
  minUnsignedValue : Node → List Bool

/-- A query engine with its complete virtual interface: the query methods,
the (state-mutating, fallible) `Populate`, and `SpecializeGivenPredicate`,
which returns a fresh engine.  Recursive because specialization returns an
engine. -/
inductive QueryEngineVt where
  | mk (populate : FunctionBase → Except String ReachedFixpoint)
       (methods : QueryMethods)
       (specializeGivenPredicate : List PredicateState → QueryEngineVt)

def QueryEngineVt.populate : QueryEngineVt → FunctionBase → Except String ReachedFixpoint
  | .mk p _ _ => p

def QueryEngineVt.methods : QueryEngineVt → QueryMethods
  | .mk _ m _ => m

def QueryEngineVt.specializeGivenPredicate :
    QueryEngineVt → List PredicateState → QueryEngineVt
  | .mk _ _ s => s

/-- `ForwardingQueryEngine` (query_engine.cc): every query method delegates
verbatim to the wrapped engine; `Populate` is refused with an error;
`SpecializeGivenPredicate` forwards to the wrapped engine's own
specialization. -/
def ForwardingQueryEngine (real : QueryEngineVt) : QueryEngineVt :=
  .mk (fun _ => Except.error "Cannot populate forwarding engine!")
      { isTracked := fun node => real.methods.isTracked node
        getTernary := fun node => real.methods.getTernary node
        getIntervals := fun node => real.methods.getIntervals node
        atMostOneTrue := fun bits => real.methods.atMostOneTrue bits
        atLeastOneTrue := fun bits => real.methods.atLeastOneTrue bits
        implies := fun a b => real.methods.implies a b
        impliedNodeValue := fun pbv node => real.methods.impliedNodeValue pbv node
        impliedNodeTernary := fun pbv node => real.methods.impliedNodeTernary pbv node
        knownEquals := fun a b => real.methods.knownEquals a b
        knownNotEquals := fun a b => real.methods.knownNotEquals a b
        atMostOneBitTrue := fun node => real.methods.atMostOneBitTrue node
        atLeastOneBitTrue := fun node => real.methods.atLeastOneBitTrue node
        exactlyOneBitTrue := fun node => real.methods.exactlyOneBitTrue node
        isKnown := fun bit => real.methods.isKnown bit
        knownValueBit := fun bit => real.methods.knownValueBit bit
        knownValueNode := fun node => real.methods.knownValueNode node
        isAllZeros := fun n => real.methods.isAllZeros n
        isAllOnes := fun n => real.methods.isAllOnes n
        isFullyKnown := fun n => real.methods.isFullyKnown n
        maxUnsignedValue := fun node => real.methods.maxUnsignedValue node
        minUnsignedValue := fun node => real.methods.minUnsignedValue node }
      (fun state => real.specializeGivenPredicate state)

/-- `QueryEngine::SpecializeGivenPredicate` (base-class default): a
forwarding engine wrapping the engine itself. -/
def defaultSpecializeGivenPredicate (e : QueryEngineVt) (_state : List PredicateState) :
    QueryEngineVt :=
  ForwardingQueryEngine e

/-- Type descriptors as stored by the package's type interner
(`BitsType` / `TokenType` / `ArrayType` / `TupleType` / `FunctionType`).
Component types are referenced by their identity (arena index); the `none`
element of an array models the null element pointer of the degenerate
zero-length-array type. -/
inductive PTy where
  | bits (width : Nat)
  | token
  | array (size : Nat) (elem : Option Nat)
  | tuple (elems : List Nat)
  | func (params : List Nat) (ret : Nat)
  deriving DecidableEq, Repr

/-- Association-list lookup keyed by decidable equality, modelling the
`find`/`at` pattern on the interner's hash maps. -/
def alookup {α : Type} [DecidableEq α] : List (α × Nat) → α → Option Nat
  | [], _ => none
  | (k, v) :: rest, key => if key = k then some v else alookup rest key

/-- The type-interning state of `xls::Package`: an arena of owned type
instances (identity = index) and one cache map per type kind, keyed by the
structural key used in package.cc (width for bits; (size, element identity)
for arrays; ordered element identities for tuples; for functions the source
renders the signature to a string, which for interned components is
determined by the (parameter, return) identities modelled here).  The token
type is created with the package itself. -/
structure Package where
  arena : List PTy
  bitCountToType : List (Nat × Nat)
  arrayTypes : List ((Nat × Option Nat) × Nat)
  tupleTypes : List (List Nat × Nat)
  functionTypes : List ((List Nat × Nat) × Nat)
  tokenTypeId : Nat

/-- A freshly constructed package: only the token type exists and is owned
(`Package::Package` inserts `&token_type_` into `owned_types_`). -/
def initPackage : Package :=
  { arena := [PTy.token]
    bitCountToType := []
    arrayTypes := []
    tupleTypes := []
    functionTypes := []
    tokenTypeId := 0 }

namespace Package

/-- Modelled from the spec: `Package::IsOwnedType` (declared in
xls/ir/package.h, not among the provided sources) — whether a type instance
is owned by this package (membership of `owned_types_`; in the arena model,
a valid arena index).  The spec requires callers of `GetTypeForValue` to
receive — not abort on — the degenerate null-element array type, so the
absent element passes the ownership check. -/
def IsOwnedType (p : Package) (t : Option Nat) : Bool :=
  match t with
  | none => true
  | some id => id < p.arena.length

/-- `Package::GetBitsType`: cached by width, created and recorded as owned
on first request. -/
def GetBitsType (p : Package) (bitCount : Nat) : Package × Nat :=
  match alookup p.bitCountToType bitCount with
  | some id => (p, id)
  | none =>
      let id := p.arena.length
      ({ p with
          arena := p.arena ++ [PTy.bits bitCount]
          bitCountToType := (bitCount, id) :: p.bitCountToType }, id)

/-- `Package::GetArrayType`: cached by (size, element identity); on a cache
miss the element must be owned (`XLS_CHECK(IsOwnedType(element_type))`,
modelled as `none` = abort). -/
def GetArrayType (p : Package) (size : Nat) (elementType : Option Nat) :
    Option (Package × Nat) :=
  match alookup p.arrayTypes (size, elementType) with
  | some id => some (p, id)
  | none =>
      if p.IsOwnedType elementType then
        let id := p.arena.length
        some ({ p with
                  arena := p.arena ++ [PTy.array size elementType]
                  arrayTypes := ((size, elementType), id) :: p.arrayTypes }, id)
      else none

/-- `Package::GetTupleType`: cached by the ordered element identities; on a
cache miss every element must be owned. -/
def GetTupleType (p : Package) (elementTypes : List Nat) : Option (Package × Nat) :=
  match alookup p.tupleTypes elementTypes with
  | some id => some (p, id)
  | none =>
      if elementTypes.all (fun t => p.IsOwnedType (some t)) then
        let id := p.arena.length
        some ({ p with
                  arena := p.arena ++ [PTy.tuple elementTypes]
                  tupleTypes := (elementTypes, id) :: p.tupleTypes }, id)
      else none

/-- `Package::GetTokenType`: the single canonical token instance. -/
def GetTokenType (p : Package) : Package × Nat :=
  (p, p.tokenTypeId)

/-- `Package::GetFunctionType`: cached by the rendered signature (determined
by the parameter and return identities); on a cache miss every parameter
type must be owned (the source checks only `args_types`, not the return
type). -/
def GetFunctionType (p : Package) (argsTypes : List Nat) (returnType : Nat) :
    Option (Package × Nat) :=
  match alookup p.functionTypes (argsTypes, returnType) with
  | some id => some (p, id)
  | none =>
      if argsTypes.all (fun t => p.IsOwnedType (some t)) then
        let id := p.arena.length
        some ({ p with
                  arena := p.arena ++ [PTy.func argsTypes returnType]
                  functionTypes := ((argsTypes, returnType), id) :: p.functionTypes }, id)
      else none

mutual

/-- `Package::GetTypeForValue`: derives a type from a concrete value tree
bottom-up.  A zero-length array yields `GetArrayType(0, nullptr)` ("No
element type can be inferred for 0-element arrays"); a non-empty array
infers the element type from its first element. -/
def GetTypeForValue (p : Package) (value : Value) : Option (Package × Nat) :=
  match value with
  | .bits b => some (p.GetBitsType b.length)
  | .tuple elems =>
      match getTypesForValues p elems with
      | some (p1, ids) => p1.GetTupleType ids
      | none => none
  | .array elems =>
      match elems with
      | [] => p.GetArrayType 0 none
      | v0 :: _ =>
          match GetTypeForValue p v0 with
          | some (p1, elemId) => p1.GetArrayType elems.length (some elemId)
          | none => none
  | .token => some p.GetTokenType

def getTypesForValues : Package → List Value → Option (Package × List Nat)
  | p, [] => some (p, [])
  | p, v :: vs =>
      match GetTypeForValue p v with
      | some (p1, id) =>
        match getTypesForValues p1 vs with
        | some (p2, ids) => some (p2, id :: ids)
        | none => none
      | none => none

end

end Package

/-- One request against the type interner, covering the five public
getters. -/
inductive TypeRequest where
  | bits (width : Nat)
  | array (size : Nat) (elem : Option Nat)
  | tuple (elems : List Nat)
  | func (params : List Nat) (ret : Nat)
  | token
  deriving DecidableEq, Repr

namespace Package

/-- Dispatches one type request to the corresponding getter. -/
def applyRequest (p : Package) (r : TypeRequest) : Option (Package × Nat) :=
  match r with
  | .bits w => some (p.GetBitsType w)
  | .array s e => p.GetArrayType s e
  | .tuple es => p.GetTupleType es
  | .func ps ret => p.GetFunctionType ps ret
  | .token => some p.GetTokenType

/-- Runs a sequence of type requests, stopping at the first aborted one. -/
def applyRequests (p : Package) : List TypeRequest → Option Package
  | [] => some p
  | r :: rs =>
      match p.applyRequest r with
      | some (p1, _) => p1.applyRequests rs
      | none => none

/-- The cache-map lookup performed by the getter a request dispatches to. -/
def requestLookup (p : Package) (r : TypeRequest) : Option Nat :=
  match r with
  | .bits w => alookup p.bitCountToType w
  | .array s e => alookup p.arrayTypes (s, e)
  | .tuple es => alookup p.tupleTypes es
  | .func ps ret => alookup p.functionTypes (ps, ret)
  | .token => some p.tokenTypeId

/-- The arena instance a request creates on a cache miss. -/
def requestShape : TypeRequest → PTy
  | .bits w => .bits w
  | .array s e => .array s e
  | .tuple es => .tuple es
  | .func ps ret => .func ps ret
  | .token => .token

/-- The package state after a cache-miss creation for a request: the new
instance is appended to the arena and its structural key recorded in the
cache map of its kind.  (A token request never creates.) -/
def insertReq (p : Package) (r : TypeRequest) : Package :=
  match r with
  | .bits w =>
      { p with
          arena := p.arena ++ [PTy.bits w]
          bitCountToType := (w, p.arena.length) :: p.bitCountToType }
  | .array s e =>
      { p with
          arena := p.arena ++ [PTy.array s e]
          arrayTypes := ((s, e), p.arena.length) :: p.arrayTypes }
  | .tuple es =>
      { p with
          arena := p.arena ++ [PTy.tuple es]
          tupleTypes := (es, p.arena.length) :: p.tupleTypes }
  | .func ps ret =>
      { p with
          arena := p.arena ++ [PTy.func ps ret]
          functionTypes := ((ps, ret), p.arena.length) :: p.functionTypes }
  | .token => p

/-- The cache-map lookup for the structural key of an arena instance. -/
def keyLookup (p : Package) : PTy → Option Nat
  | .bits w => alookup p.bitCountToType w
  | .array s e => alookup p.arrayTypes (s, e)
  | .tuple es => alookup p.tupleTypes es
  | .func ps ret => alookup p.functionTypes (ps, ret)
  | .token => some p.tokenTypeId

/-- A package state producible from a fresh package by some sequence of
type requests. -/
def Reachable (p : Package) : Prop :=
  ∃ rs, initPackage.applyRequests rs = some p

/-- Soundness of the array-type cache: whatever identity the cache maps a
structural key to is an arena instance of exactly that shape.  Holds for
every package whose caches were only ever filled by the getters. -/
def ArrayCacheSound (p : Package) : Prop :=
  ∀ s e id, alookup p.arrayTypes (s, e) = some id → p.arena[id]? = some (PTy.array s e)

/-- The internal invariant of the type interner: every arena instance's
structural key is present in the cache map of its kind, and no two arena
indices hold the same instance shape. -/
def Inv (p : Package) : Prop :=
  (∀ (i : Nat) (t : PTy), p.arena[i]? = some t → (keyLookup p t).isSome = true) ∧
  (∀ (i j : Nat) (t : PTy), p.arena[i]? = some t → p.arena[j]? = some t → i = j)

end Package

/-- A concrete bit vector is consistent with a ternary vector when it agrees
with every known bit. -/
def ternaryCompatible (tv : TernaryVector) (v : List Bool) : Prop :=
  ∀ i, i < tv.length →
    (tv.getD i TernaryValue.kUnknown = TernaryValue.kKnownOne → v.getD i false = true) ∧
    (tv.getD i TernaryValue.kUnknown = TernaryValue.kKnownZero → v.getD i false = false)

instance (tv : TernaryVector) (v : List Bool) : Decidable (ternaryCompatible tv v) := by
  unfold ternaryCompatible; infer_instance

/-- A concrete bit vector for a bits-typed node is consistent with the
engine's tracked ternary fact when it agrees with every bit the engine
knows. -/
def QueryEngine.consistentWith (e : QueryEngine) (node : Node) (v : List Bool) : Prop :=
  ∀ i, i < v.length →
    (e.KnownValueBit ⟨node, 0, i⟩ = some true → v.getD i false = true) ∧
    (e.KnownValueBit ⟨node, 0, i⟩ = some false → v.getD i false = false)

instance (e : QueryEngine) (node : Node) (v : List Bool) :
    Decidable (e.consistentWith node v) := by
  unfold QueryEngine.consistentWith; infer_instance

/-- A concrete engine used to instantiate the theorems below.  Node 1 is the
spec's end-to-end example: a bits[4] node with ternary fact
`[kKnownOne, kUnknown, kUnknown, kKnownZero]` (index 0 = LSB).  Nodes 2/3
have disjoint known low bits, nodes 4/5 have no known bits, node 6 is a
tuple of (token, bits[1]) with the bit known-one, node 7 is tracked with an
all-but-one-known vector; everything else is untracked. -/
def engW : QueryEngine where
  IsTracked := fun n => 1 ≤ n.id && n.id ≤ 7
  GetTernary := fun n =>
    if n.id == 1 then
      some [[.kKnownOne, .kUnknown, .kUnknown, .kKnownZero]]
    else if n.id == 2 then some [[.kKnownZero, .kUnknown]]
    else if n.id == 3 then some [[.kKnownOne]]
    else if n.id == 4 then some [[.kUnknown, .kUnknown]]
    else if n.id == 5 then some [[.kUnknown, .kUnknown]]
    else if n.id == 6 then some [[], [.kKnownOne]]
    else if n.id == 7 then some [[.kKnownOne, .kUnknown]]
    else none

def nW1 : Node := ⟨1, .bits 4⟩
def nW2 : Node := ⟨2, .bits 2⟩
def nW3 : Node := ⟨3, .bits 1⟩
def nW4 : Node := ⟨4, .bits 2⟩
def nW5 : Node := ⟨5, .bits 2⟩
def nW6 : Node := ⟨6, .tuple [.token, .bits 1]⟩
def nW7 : Node := ⟨7, .bits 2⟩

/-! ### Helper lemmas -/

theorem getD_range_map (f : Nat → Bool) (w i : Nat) (d : Bool) (h : i < w) :
    (((List.range w).map f).getD i d) = f i := by
  rw [List.getD_eq_getElem?_getD]
  simp [List.getElem?_map, List.getElem?_range, h]

/-- Bitwise domination of bit vectors of equal width gives the unsigned
order. -/
theorem bitsToNat_le_of_pointwise :
    ∀ (v w : List Bool), v.length = w.length →
      (∀ i, i < v.length → v.getD i false = true → w.getD i false = true) →
      bitsToNat v ≤ bitsToNat w := by
  intro v
  induction v with
  | nil => intro w _ _; simp [bitsToNat]
  | cons a v ih =>
    intro w hlen hp
    cases w with
    | nil => simp at hlen
    | cons b w' =>
      have htail : bitsToNat v ≤ bitsToNat w' := by
        refine ih w' (by simpa using hlen) ?_
        intro i hi hv
        have := (hp (i + 1) (by simpa using Nat.succ_lt_succ hi))
        simpa using this (by simpa using hv)
      have hhead : a = true → b = true := by
        intro ha
        have := hp 0 (by simp)
        simpa using this (by simpa using ha)
      simp only [bitsToNat]
      cases a with
      | false => cases b <;> simp <;> omega
      | true => rw [hhead rfl]; omega

theorem IsOne_iff (e : QueryEngine) (bit : TreeBitLocation) :
    e.IsOne bit = true ↔ e.KnownValueBit bit = some true := by
  unfold QueryEngine.IsOne
  cases h : e.KnownValueBit bit with
  | none => simp
  | some b => cases b <;> simp

theorem IsZero_iff (e : QueryEngine) (bit : TreeBitLocation) :
    e.IsZero bit = true ↔ e.KnownValueBit bit = some false := by
  unfold QueryEngine.IsZero
  cases h : e.KnownValueBit bit with
  | none => simp
  | some b => cases b <;> simp

theorem bitCount_of_bits {node : Node} {w : Nat} (h : node.ty = .bits w) :
    node.bitCount = w := by
  unfold Node.bitCount; rw [h]

/-! ### C10 -/

/-- C10: for every bit location, `IsOne` and `IsZero` are never both true —
an unknown or untracked bit makes both false — and consequently, for every
bits-typed node, `MinUnsignedValue(node) <= MaxUnsignedValue(node)` as
unsigned integers, regardless of whether the node is tracked. -/
theorem isOne_isZero_exclusive_min_le_max :
    (∀ (e : QueryEngine) (bit : TreeBitLocation),
        ¬(e.IsOne bit = true ∧ e.IsZero bit = true)) ∧
    (∀ (e : QueryEngine) (bit : TreeBitLocation),
        e.KnownValueBit bit = none → e.IsOne bit = false ∧ e.IsZero bit = false) ∧
    (∀ (e : QueryEngine) (node : Node) (w : Nat), node.ty = .bits w →
        bitsToNat (e.MinUnsignedValue node) ≤ bitsToNat (e.MaxUnsignedValue node)) := by
  refine ⟨?_, ?_, ?_⟩
  · rintro e bit ⟨h1, h0⟩
    rw [IsOne_iff] at h1
    rw [IsZero_iff] at h0
    rw [h1] at h0
    cases h0
  · intro e bit h
    unfold QueryEngine.IsOne QueryEngine.IsZero
    rw [h]
    exact ⟨rfl, rfl⟩
  · intro e node w _
    unfold QueryEngine.MinUnsignedValue QueryEngine.MaxUnsignedValue
    refine bitsToNat_le_of_pointwise _ _ (by simp) ?_
    intro i hi hv
    have hiw : i < node.bitCount := by simpa using hi
    rw [getD_range_map _ _ _ _ hiw] at hv ⊢
    rw [IsOne_iff] at hv
    by_cases hz : e.IsZero ⟨node, 0, i⟩ = true
    · rw [IsZero_iff] at hz
      rw [hv] at hz
      cases hz
    · simp [hz]

/-- C10 witness: the exclusivity and the bound at a concrete engine and
node. -/
theorem isOne_isZero_exclusive_min_le_max_witness :
    ¬(engW.IsOne ⟨nW1, 0, 0⟩ = true ∧ engW.IsZero ⟨nW1, 0, 0⟩ = true) ∧
    bitsToNat (engW.MinUnsignedValue nW1) ≤ bitsToNat (engW.MaxUnsignedValue nW1) :=
  ⟨isOne_isZero_exclusive_min_le_max.1 engW ⟨nW1, 0, 0⟩,
   isOne_isZero_exclusive_min_le_max.2.2 engW nW1 4 rfl⟩

/-! ### C1 -/

/-- C1: for every bits-typed node and every concrete bit vector consistent
with the engine's tracked ternary fact for that node, the unsigned value
lies between `MinUnsignedValue(node)` and `MaxUnsignedValue(node)`. -/
theorem extremal_bounds_sound (e : QueryEngine) (node : Node) (w : Nat) (v : List Bool)
    (hty : node.ty = .bits w) (hlen : v.length = w) (hc : e.consistentWith node v) :
    bitsToNat (e.MinUnsignedValue node) ≤ bitsToNat v ∧
      bitsToNat v ≤ bitsToNat (e.MaxUnsignedValue node) := by
  have hbc : node.bitCount = w := bitCount_of_bits hty
  constructor
  · unfold QueryEngine.MinUnsignedValue
    refine bitsToNat_le_of_pointwise _ _ (by simp [hbc, hlen]) ?_
    intro i hi hv
    have hiw : i < node.bitCount := by simpa using hi
    rw [getD_range_map _ _ _ _ hiw] at hv
    rw [IsOne_iff] at hv
    exact ((hc i (by omega)).1 hv)
  · unfold QueryEngine.MaxUnsignedValue
    refine bitsToNat_le_of_pointwise _ _ (by simp [hbc, hlen]) ?_
    intro i hi hv
    have hiw : i < node.bitCount := by rw [hbc]; omega
    rw [getD_range_map _ _ _ _ hiw]
    by_cases hz : e.IsZero ⟨node, 0, i⟩ = true
    · rw [IsZero_iff] at hz
      have := (hc i (by omega)).2 hz
      rw [this] at hv
      cases hv
    · simp [hz]

/-- C1 witness: the bounds at the spec's four-bit example node, with the
concrete consistent value 5 (binary 0101, LSB first `[1,0,1,0]`). -/
theorem extremal_bounds_sound_witness :
    bitsToNat (engW.MinUnsignedValue nW1) ≤ bitsToNat [true, false, true, false] ∧
      bitsToNat [true, false, true, false] ≤ bitsToNat (engW.MaxUnsignedValue nW1) :=
  extremal_bounds_sound engW nW1 4 [true, false, true, false] rfl rfl (by decide)

/-! ### C3 -/

/-- C3: for bits-typed nodes `a` and `b`, `NodesKnownUnsignedNotEquals`
returns true iff some bit position below the wider width (the narrower
operand conceptually zero-extended) has both sides individually known and
differing; otherwise false — a false result is no proof of equality. -/
theorem nodesKnownUnsignedNotEquals_iff (e : QueryEngine) (a b : Node) (wa wb : Nat)
    (hta : a.ty = .bits wa) (htb : b.ty = .bits wb) :
    e.NodesKnownUnsignedNotEquals a b = true ↔
      ∃ i, i < max wa wb ∧ e.getKnownBit a i ≠ .kUnknown ∧
        e.getKnownBit b i ≠ .kUnknown ∧ e.getKnownBit a i ≠ e.getKnownBit b i := by
  unfold QueryEngine.NodesKnownUnsignedNotEquals
  rw [bitCount_of_bits hta, bitCount_of_bits htb, List.any_eq_true]
  constructor
  · rintro ⟨i, hmem, hpred⟩
    simp only [Bool.and_eq_true, bne_iff_ne] at hpred
    exact ⟨i, List.mem_range.mp hmem, hpred.1.2, hpred.2, hpred.1.1⟩
  · rintro ⟨i, hlt, h1, h2, h3⟩
    refine ⟨i, List.mem_range.mpr hlt, ?_⟩
    simp only [Bool.and_eq_true, bne_iff_ne]
    exact ⟨⟨h3, h1⟩, h2⟩

/-- C3 witness: nodes 2 (low bit known-zero) and 3 (low bit known-one) of the
concrete engine give a position where both sides are known and differ. -/
theorem nodesKnownUnsignedNotEquals_iff_witness :
    engW.NodesKnownUnsignedNotEquals nW2 nW3 = true ↔
      ∃ i, i < max 2 1 ∧ engW.getKnownBit nW2 i ≠ .kUnknown ∧
        engW.getKnownBit nW3 i ≠ .kUnknown ∧ engW.getKnownBit nW2 i ≠ engW.getKnownBit nW3 i :=
  nodesKnownUnsignedNotEquals_iff engW nW2 nW3 2 1 rfl rfl

/-! ### C4 -/

/-- C4: for bits-typed nodes, `NodesKnownUnsignedEquals` is true exactly for
identical nodes or for two fully-known concrete values comparing
unsigned-equal; and it is not the logical complement of
`NodesKnownUnsignedNotEquals` — for two distinct nodes with no known bits
both predicates are false. -/
theorem nodesKnownUnsignedEquals_spec :
    (∀ (e : QueryEngine) (a b : Node) (wa wb : Nat),
        a.ty = .bits wa → b.ty = .bits wb →
        (e.NodesKnownUnsignedEquals a b = true ↔
          a = b ∨ ∃ va vb, e.KnownValueAsBits a = some va ∧
            e.KnownValueAsBits b = some vb ∧ bitsUEqual va vb = true)) ∧
    (engW.NodesKnownUnsignedEquals nW4 nW5 = false ∧
      engW.NodesKnownUnsignedNotEquals nW4 nW5 = false) := by
  constructor
  · intro e a b wa wb _ _
    unfold QueryEngine.NodesKnownUnsignedEquals
    by_cases hab : a = b
    · simp [hab]
    · rw [if_neg hab]
      cases ha : e.KnownValueAsBits a with
      | none =>
        constructor
        · intro h; cases h
        · rintro (h | ⟨va, vb, hva, _, _⟩)
          · exact absurd h hab
          · cases hva
      | some va =>
        cases hb : e.KnownValueAsBits b with
        | none =>
          constructor
          · intro h; cases h
          · rintro (h | ⟨va', vb', _, hvb, _⟩)
            · exact absurd h hab
            · cases hvb
        | some vb =>
          constructor
          · intro h; exact Or.inr ⟨va, vb, rfl, rfl, h⟩
          · rintro (h | ⟨va', vb', hva, hvb, h⟩)
            · exact absurd h hab
            · cases hva; cases hvb; exact h
  · exact ⟨by decide, by decide⟩

/-- C4 witness: the characterization instantiated at two concrete distinct
bits-typed nodes. -/
theorem nodesKnownUnsignedEquals_spec_witness :
    engW.NodesKnownUnsignedEquals nW2 nW3 = true ↔
      nW2 = nW3 ∨ ∃ va vb, engW.KnownValueAsBits nW2 = some va ∧
        engW.KnownValueAsBits nW3 = some vb ∧ bitsUEqual va vb = true :=
  nodesKnownUnsignedEquals_spec.1 engW nW2 nW3 2 1 rfl rfl

/-! ### C5 -/

/-- C5: `IsAllZeros`, `IsAllOnes` and `IsFullyKnown` are false for untracked
nodes and for nodes whose type transitively contains a token leaf (even if
every bits leaf is fully known); otherwise each is true iff every leaf's
ternary vector is respectively fully known-zero, fully known-one, or fully
known. -/
theorem allZeros_allOnes_fullyKnown_spec (e : QueryEngine) (node : Node) :
    ((e.IsTracked node = false ∨ tyHasToken node.ty = true) →
       e.IsAllZeros node = false ∧ e.IsAllOnes node = false ∧
         e.IsFullyKnown node = false) ∧
    (∀ t, e.IsTracked node = true → tyHasToken node.ty = false →
       e.GetTernary node = some t →
       ((e.IsAllZeros node = true ↔ ∀ v ∈ t, ternaryIsKnownZero v = true) ∧
        (e.IsAllOnes node = true ↔ ∀ v ∈ t, ternaryIsKnownOne v = true) ∧
        (e.IsFullyKnown node = true ↔ ∀ v ∈ t, ternaryIsFullyKnown v = true))) := by
  constructor
  · intro h
    unfold QueryEngine.IsAllZeros QueryEngine.IsAllOnes QueryEngine.IsFullyKnown
    rcases h with h | h <;> simp [h]
  · intro t htr htok hgt
    unfold QueryEngine.IsAllZeros QueryEngine.IsAllOnes QueryEngine.IsFullyKnown
    simp [htr, htok, hgt, List.all_eq_true]

/-- C5 witness: the tuple-of-(token, bits[1]) node with its single bit
known-one still fails all three predicates because of the token leaf. -/
theorem allZeros_allOnes_fullyKnown_spec_witness :
    engW.IsAllZeros nW6 = false ∧ engW.IsAllOnes nW6 = false ∧
      engW.IsFullyKnown nW6 = false :=
  (allZeros_allOnes_fullyKnown_spec engW nW6).1 (Or.inr (by decide))

/-! ### C2 -/

theorem length_flatten_replicate {α : Type} (n : Nat) (l : List α) :
    ((List.replicate n l).flatten).length = n * l.length := by
  induction n with
  | zero => simp
  | succ m ih =>
      rw [List.replicate_succ, List.flatten_cons, List.length_append, ih]
      ring

mutual

/-- Reassembly succeeds whenever enough leaves are supplied, consuming
exactly one leaf per leaf type. -/
theorem valueFromLeaves_total :
    ∀ (ty : Ty) (leaves : List Value), (leafTypes ty).length ≤ leaves.length →
      ∃ v, valueFromLeaves ty leaves = some (v, leaves.drop (leafTypes ty).length)
  | .bits w, [], h => by simp [leafTypes] at h
  | .bits w, l :: rest, _ => ⟨l, by simp [valueFromLeaves, leafTypes]⟩
  | .token, [], h => by simp [leafTypes] at h
  | .token, l :: rest, _ => ⟨l, by simp [valueFromLeaves, leafTypes]⟩
  | .tuple ts, leaves, h => by
      obtain ⟨vs, hvs⟩ := valuesFromLeaves_total ts leaves (by simpa [leafTypes] using h)
      exact ⟨Value.tuple vs, by simp [valueFromLeaves, leafTypes, hvs]⟩
  | .array n t, leaves, h => by
      have hlen : (leafTypes (Ty.array n t)).length = n * (leafTypes t).length := by
        simp [leafTypes, length_flatten_replicate]
      obtain ⟨vs, hvs⟩ := arrayFromLeaves_total n t leaves (by rw [hlen] at h; exact h)
      refine ⟨Value.array vs, ?_⟩
      rw [hlen]
      simp [valueFromLeaves, hvs]

theorem valuesFromLeaves_total :
    ∀ (ts : List Ty) (leaves : List Value), (leafTypesList ts).length ≤ leaves.length →
      ∃ vs, valuesFromLeaves ts leaves = some (vs, leaves.drop (leafTypesList ts).length)
  | [], leaves, _ => ⟨[], by simp [valuesFromLeaves, leafTypesList]⟩
  | t :: ts, leaves, h => by
      have hsum : (leafTypesList (t :: ts)).length
          = (leafTypes t).length + (leafTypesList ts).length := by
        simp [leafTypesList]
      rw [hsum] at h
      obtain ⟨v, hv⟩ := valueFromLeaves_total t leaves (by omega)
      obtain ⟨vs, hvs⟩ := valuesFromLeaves_total ts (leaves.drop (leafTypes t).length)
        (by simp only [List.length_drop]; omega)
      refine ⟨v :: vs, ?_⟩
      rw [hsum]
      simp [valuesFromLeaves, hv, hvs, List.drop_drop]

theorem arrayFromLeaves_total :
    ∀ (n : Nat) (t : Ty) (leaves : List Value), n * (leafTypes t).length ≤ leaves.length →
      ∃ vs, arrayFromLeaves n t leaves = some (vs, leaves.drop (n * (leafTypes t).length))
  | 0, t, leaves, _ => ⟨[], by simp [arrayFromLeaves]⟩
  | n + 1, t, leaves, h => by
      have hmul : (n + 1) * (leafTypes t).length
          = (leafTypes t).length + n * (leafTypes t).length := by ring
      rw [hmul] at h
      obtain ⟨v, hv⟩ := valueFromLeaves_total t leaves (by omega)
      obtain ⟨vs, hvs⟩ := arrayFromLeaves_total n t (leaves.drop (leafTypes t).length)
        (by simp only [List.length_drop]; omega)
      refine ⟨v :: vs, ?_⟩
      rw [hmul]
      simp [arrayFromLeaves, hv, hvs, List.drop_drop]

end

/-- C2: `KnownValue(node)` is absent unless the node is tracked and every
leaf's ternary vector is fully known (so a node with all but one bit known
yields absent, and no partial value is ever returned); when everything is
known it returns the concrete value assembled leaf by leaf from the known
bits in the shape of the node's type, token leaves mapping to the token
value. -/
theorem knownValue_all_or_nothing :
    (∀ (e : QueryEngine) (node : Node),
        e.GetTernary node = none → e.KnownValue node = none) ∧
    (∀ (e : QueryEngine) (node : Node) (t : List TernaryVector),
        e.GetTernary node = some t → t.length = (leafTypes node.ty).length →
        ((e.IsTracked node = false → e.KnownValue node = none) ∧
         ((∃ v ∈ t, ternaryIsFullyKnown v = false) → e.KnownValue node = none) ∧
         (e.IsTracked node = true → (∀ v ∈ t, ternaryIsFullyKnown v = true) →
            ∃ val, e.KnownValue node = some val ∧
              valueFromLeaves node.ty (assembledKnownLeaves node.ty t)
                = some (val, [])))) := by
  constructor
  · intro e node hgt
    unfold QueryEngine.KnownValue
    cases htr : e.IsTracked node <;> simp [htr, hgt]
  · intro e node t hgt hlen
    refine ⟨?_, ?_, ?_⟩
    · intro htr
      unfold QueryEngine.KnownValue
      simp [htr]
    · rintro ⟨v, hv, hnk⟩
      unfold QueryEngine.KnownValue
      have hall : t.all ternaryIsFullyKnown = false := by
        rcases hb : t.all ternaryIsFullyKnown with _ | _
        · rfl
        · have := List.all_eq_true.mp hb v hv
          rw [hnk] at this
          cases this
      cases htr : e.IsTracked node <;> simp [htr, hgt, hall]
    · intro htr hall
      have hallb : t.all ternaryIsFullyKnown = true := List.all_eq_true.mpr hall
      have hlen2 : (assembledKnownLeaves node.ty t).length = (leafTypes node.ty).length := by
        simp [assembledKnownLeaves, hlen]
      obtain ⟨val, hval⟩ :=
        valueFromLeaves_total node.ty (assembledKnownLeaves node.ty t) (by rw [hlen2])
      have hdrop : (assembledKnownLeaves node.ty t).drop (leafTypes node.ty).length = [] := by
        rw [← hlen2]
        exact List.drop_length _
      rw [hdrop] at hval
      refine ⟨val, ?_, hval⟩
      unfold QueryEngine.KnownValue leafTypeTreeToValue
      simp [htr, hgt, hallb, hval]

/-- C2 witness: the four-bit node with unknown middle bits yields absent; the
fully-known tuple-of-(token, bits[1]) node yields the assembled concrete
value. -/
theorem knownValue_all_or_nothing_witness :
    engW.KnownValue nW1 = none ∧
      ∃ val, engW.KnownValue nW6 = some val ∧
        valueFromLeaves nW6.ty (assembledKnownLeaves nW6.ty [[], [.kKnownOne]])
          = some (val, []) :=
  ⟨(knownValue_all_or_nothing.2 engW nW1
      [[.kKnownOne, .kUnknown, .kUnknown, .kKnownZero]] rfl rfl).2.1
      ⟨[.kKnownOne, .kUnknown, .kUnknown, .kKnownZero], by simp, by decide⟩,
   (knownValue_all_or_nothing.2 engW nW6 [[], [.kKnownOne]] rfl rfl).2.2 rfl (by decide)⟩

/-! ### C6 -/

theorem mem_allAssignments (l : List Bool) : l ∈ allAssignments l.length := by
  induction l with
  | nil => simp [allAssignments]
  | cons b l ih =>
      simp only [List.length_cons, allAssignments, List.mem_append, List.mem_map]
      cases b
      · exact Or.inl ⟨l, ih, rfl⟩
      · exact Or.inr ⟨l, ih, rfl⟩

theorem length_allAssignments (n : Nat) : (allAssignments n).length = 2 ^ n := by
  induction n with
  | zero => simp [allAssignments]
  | succ m ih =>
      simp [allAssignments, ih]
      ring

theorem zip_self_map {α β : Type} (l : List α) (f : α → β) :
    l.zip (l.map f) = l.map (fun a => (a, f a)) := by
  induction l with
  | nil => simp
  | cons a l ih => simp [ih]

theorem lookup_map_pair (f : Nat → Bool) :
    ∀ (l : List Nat) (i : Nat),
      (l.map (fun a => (a, f a))).lookup i = if i ∈ l then some (f i) else none := by
  intro l
  induction l with
  | nil => intro i; simp
  | cons a l ih =>
      intro i
      by_cases h : i = a
      · subst h
        simp [List.lookup]
      · have hne : (i == a) = false := by simp [h]
        simp [List.lookup, hne, h, ih]

/-- Soundness of the bounded ternary-to-interval conversion: every concrete
bit vector compatible with the ternary vector lands in some range. -/
theorem fromTernary_covers (tv : TernaryVector) (cap : Nat) (v : List Bool)
    (hlen : v.length = tv.length) (hc : ternaryCompatible tv v) :
    intervalSetCovers (fromTernary tv cap) (bitsToNat v) := by
  unfold fromTernary intervalSetCovers
  set E := (unknownPositions tv).drop ((unknownPositions tv).length - cap) with hE
  set f : Nat → Bool := fun i => v.getD i false with hf
  refine ⟨(bitsToNat (ternaryConcretize tv (E.zip (E.map f)) false),
           bitsToNat (ternaryConcretize tv (E.zip (E.map f)) true)), ?_, ?_, ?_⟩
  · apply List.mem_map.mpr
    refine ⟨E.map f, ?_, rfl⟩
    have hl : (E.map f).length = E.length := by simp
    rw [← hl]
    exact mem_allAssignments (E.map f)
  · apply bitsToNat_le_of_pointwise
    · simp [ternaryConcretize, hlen]
    · intro i hi hbit
      have hit : i < tv.length := by simpa [ternaryConcretize] using hi
      unfold ternaryConcretize at hbit
      rw [getD_range_map _ _ _ _ hit] at hbit
      cases htv : tv.getD i TernaryValue.kUnknown with
      | kKnownOne => exact (hc i hit).1 htv
      | kKnownZero => rw [htv] at hbit; cases hbit
      | kUnknown =>
          rw [htv, zip_self_map, lookup_map_pair] at hbit
          by_cases hm : i ∈ E
          · rw [if_pos hm] at hbit
            exact hbit
          · rw [if_neg hm] at hbit
            cases hbit
  · apply bitsToNat_le_of_pointwise
    · simp [ternaryConcretize, hlen]
    · intro i hi hvi
      have hit : i < tv.length := by omega
      unfold ternaryConcretize
      rw [getD_range_map _ _ _ _ hit]
      cases htv : tv.getD i TernaryValue.kUnknown with
      | kKnownOne => rfl
      | kKnownZero =>
          have := (hc i hit).2 htv
          rw [this] at hvi
          cases hvi
      | kUnknown =>
          rw [zip_self_map, lookup_map_pair]
          by_cases hm : i ∈ E
          · rw [if_pos hm]
            exact hvi
          · rw [if_neg hm]
            rfl

/-- The bounded conversion produces at most `2 ^ cap` separate ranges. -/
theorem fromTernary_length_le (tv : TernaryVector) (cap : Nat) :
    (fromTernary tv cap).length ≤ 2 ^ cap := by
  unfold fromTernary
  simp only [List.length_map, List.length_drop, length_allAssignments]
  exact Nat.pow_le_pow_right (by norm_num) (by omega)

/-- C6: with no ternary fact, `GetIntervals` maps every leaf to the maximal
interval set for its flat bit width (never an error); otherwise each leaf's
ternary vector is converted independently into at most `2 ^ 4` ranges, and
every concrete value compatible with the leaf's ternary vector lies in the
returned interval set. -/
theorem getIntervals_spec (e : QueryEngine) (node : Node) :
    (e.GetTernary node = none →
       e.GetIntervals node =
         (leafTypes node.ty).map (fun lt => IntervalSet.Maximal (tyFlatBitCount lt))) ∧
    (∀ (w x : Nat), x < 2 ^ w → intervalSetCovers (IntervalSet.Maximal w) x) ∧
    (∀ t, e.GetTernary node = some t →
       (e.GetIntervals node = t.map (fun tv => fromTernary tv kMaxTernaryIntervalBits) ∧
        ∀ tv ∈ t, (fromTernary tv kMaxTernaryIntervalBits).length ≤ 2 ^ 4 ∧
          ∀ v : List Bool, v.length = tv.length → ternaryCompatible tv v →
            intervalSetCovers (fromTernary tv kMaxTernaryIntervalBits) (bitsToNat v))) := by
  refine ⟨?_, ?_, ?_⟩
  · intro h
    unfold QueryEngine.GetIntervals
    rw [h]
  · intro w x hx
    exact ⟨(0, 2 ^ w - 1), by simp [IntervalSet.Maximal], by omega, by omega⟩
  · intro t hgt
    constructor
    · unfold QueryEngine.GetIntervals
      rw [hgt]
    · intro tv _
      exact ⟨fromTernary_length_le tv kMaxTernaryIntervalBits,
             fun v hl hc => fromTernary_covers tv kMaxTernaryIntervalBits v hl hc⟩

/-- C6 witness: the intervals of the spec's four-bit example node, and
coverage of the concrete compatible value 5. -/
theorem getIntervals_spec_witness :
    engW.GetIntervals nW1 =
      [fromTernary [.kKnownOne, .kUnknown, .kUnknown, .kKnownZero] kMaxTernaryIntervalBits] ∧
    intervalSetCovers
      (fromTernary [.kKnownOne, .kUnknown, .kUnknown, .kKnownZero] kMaxTernaryIntervalBits)
      (bitsToNat [true, false, true, false]) := by
  have h := (getIntervals_spec engW nW1).2.2
    [[.kKnownOne, .kUnknown, .kUnknown, .kKnownZero]] rfl
  exact ⟨h.1,
    ((h.2 [.kKnownOne, .kUnknown, .kUnknown, .kKnownZero] (by simp)).2
      [true, false, true, false] rfl (by decide))⟩

/-! ### C7 -/

/-- C7: every query method of `ForwardingQueryEngine(E)` returns exactly
what the same query on `E` returns; `Populate` on the forwarder always fails
with an error; `SpecializeGivenPredicate` on the forwarder delegates to
`E`'s own specialization; and the base-class default of
`SpecializeGivenPredicate` is exactly such a forwarder wrapping the engine
itself, so default specialization changes no query answer (the model is
pure, so nothing mutates the original engine). -/
theorem forwarding_transparency :
    ∀ (E : QueryEngineVt) (f : FunctionBase) (state : List PredicateState)
      (node : Node) (bit : TreeBitLocation) (bits : List TreeBitLocation)
      (pbv : List (TreeBitLocation × Bool)) (a b : TreeBitLocation),
      ((ForwardingQueryEngine E).populate f
          = Except.error "Cannot populate forwarding engine!") ∧
      ((ForwardingQueryEngine E).specializeGivenPredicate state
          = E.specializeGivenPredicate state) ∧
      ((ForwardingQueryEngine E).methods.isTracked node = E.methods.isTracked node) ∧
      ((ForwardingQueryEngine E).methods.getTernary node = E.methods.getTernary node) ∧
      ((ForwardingQueryEngine E).methods.getIntervals node = E.methods.getIntervals node) ∧
      ((ForwardingQueryEngine E).methods.atMostOneTrue bits
          = E.methods.atMostOneTrue bits) ∧
      ((ForwardingQueryEngine E).methods.atLeastOneTrue bits
          = E.methods.atLeastOneTrue bits) ∧
      ((ForwardingQueryEngine E).methods.implies a b = E.methods.implies a b) ∧
      ((ForwardingQueryEngine E).methods.impliedNodeValue pbv node
          = E.methods.impliedNodeValue pbv node) ∧
      ((ForwardingQueryEngine E).methods.impliedNodeTernary pbv node
          = E.methods.impliedNodeTernary pbv node) ∧
      ((ForwardingQueryEngine E).methods.knownEquals a b = E.methods.knownEquals a b) ∧
      ((ForwardingQueryEngine E).methods.knownNotEquals a b
          = E.methods.knownNotEquals a b) ∧
      ((ForwardingQueryEngine E).methods.atMostOneBitTrue node
          = E.methods.atMostOneBitTrue node) ∧
      ((ForwardingQueryEngine E).methods.atLeastOneBitTrue node
          = E.methods.atLeastOneBitTrue node) ∧
      ((ForwardingQueryEngine E).methods.exactlyOneBitTrue node
          = E.methods.exactlyOneBitTrue node) ∧
      ((ForwardingQueryEngine E).methods.isKnown bit = E.methods.isKnown bit) ∧
      ((ForwardingQueryEngine E).methods.knownValueBit bit
          = E.methods.knownValueBit bit) ∧
      ((ForwardingQueryEngine E).methods.knownValueNode node
          = E.methods.knownValueNode node) ∧
      ((ForwardingQueryEngine E).methods.isAllZeros node = E.methods.isAllZeros node) ∧
      ((ForwardingQueryEngine E).methods.isAllOnes node = E.methods.isAllOnes node) ∧
      ((ForwardingQueryEngine E).methods.isFullyKnown node
          = E.methods.isFullyKnown node) ∧
      ((ForwardingQueryEngine E).methods.maxUnsignedValue node
          = E.methods.maxUnsignedValue node) ∧
      ((ForwardingQueryEngine E).methods.minUnsignedValue node
          = E.methods.minUnsignedValue node) ∧
      (defaultSpecializeGivenPredicate E state = ForwardingQueryEngine E) ∧
      ((defaultSpecializeGivenPredicate E state).methods.isTracked node
          = E.methods.isTracked node) ∧
      ((defaultSpecializeGivenPredicate E state).methods.getTernary node
          = E.methods.getTernary node) ∧
      ((defaultSpecializeGivenPredicate E state).populate f
          = Except.error "Cannot populate forwarding engine!") := by
  intro E f state node bit bits pbv a b
  exact ⟨rfl, rfl, rfl, rfl, rfl, rfl, rfl, rfl, rfl, rfl, rfl, rfl, rfl, rfl,
         rfl, rfl, rfl, rfl, rfl, rfl, rfl, rfl, rfl, rfl, rfl, rfl, rfl⟩

/-! ### C9 -/

/-- C9: for a zero-length array value, `GetTypeForValue` returns (does not
abort) an array type of size 0 whose element type is absent. -/
theorem getTypeForValue_empty_array (p : Package) (hs : Package.ArrayCacheSound p) :
    ∃ p' id, Package.GetTypeForValue p (Value.array []) = some (p', id) ∧
      p'.arena[id]? = some (PTy.array 0 none) := by
  have heq : Package.GetTypeForValue p (Value.array []) = p.GetArrayType 0 none := by
    simp [Package.GetTypeForValue]
  rw [heq]
  unfold Package.GetArrayType
  cases hl : alookup p.arrayTypes (0, none) with
  | some id => exact ⟨p, id, rfl, hs 0 none id hl⟩
  | none =>
      simp only [Package.IsOwnedType, if_true]
      refine ⟨_, p.arena.length, rfl, ?_⟩
      rw [List.getElem?_append_right (Nat.le_refl _)]
      simp

/-- C9 witness: the degenerate empty-array type obtained from a fresh
package. -/
theorem getTypeForValue_empty_array_witness :
    ∃ p' id, Package.GetTypeForValue initPackage (Value.array []) = some (p', id) ∧
      p'.arena[id]? = some (PTy.array 0 none) :=
  getTypeForValue_empty_array initPackage
    (by intro s e id h; simp [initPackage, alookup] at h)

/-! ### C8 -/

theorem alookup_of_cons {α : Type} [DecidableEq α] {m : List (α × Nat)} {k k' : α}
    {id id' : Nat} (hnone : alookup m k' = none) (h : alookup m k = some id) :
    alookup ((k', id') :: m) k = some id := by
  have hne : k ≠ k' := by
    intro he
    rw [he, hnone] at h
    cases h
  simp [alookup, hne, h]

theorem alookup_isSome_cons {α : Type} [DecidableEq α] {m : List (α × Nat)} {k : α}
    (k' : α) (id' : Nat) (h : (alookup m k).isSome = true) :
    (alookup ((k', id') :: m) k).isSome = true := by
  by_cases he : k = k' <;> simp [alookup, he, h]

/-- What a successful request does: either a cache hit returning the cached
identity and leaving the state unchanged, or (for a non-token request) a
cache miss appending the new instance and returning its fresh identity. -/
theorem applyRequest_eq (p : Package) (r : TypeRequest) (p1 : Package) (i : Nat)
    (hstep : p.applyRequest r = some (p1, i)) :
    (p.requestLookup r = some i ∧ p1 = p) ∨
    (p.requestLookup r = none ∧ r ≠ .token ∧ i = p.arena.length ∧ p1 = p.insertReq r) := by
  cases r with
  | bits w =>
      simp only [Package.applyRequest, Package.GetBitsType] at hstep
      cases hw : alookup p.bitCountToType w with
      | some j =>
          rw [hw] at hstep
          cases hstep
          exact Or.inl ⟨hw, rfl⟩
      | none =>
          rw [hw] at hstep
          cases hstep
          exact Or.inr ⟨hw, fun h => TypeRequest.noConfusion h, rfl, rfl⟩
  | array s e =>
      simp only [Package.applyRequest, Package.GetArrayType] at hstep
      cases hw : alookup p.arrayTypes (s, e) with
      | some j =>
          rw [hw] at hstep
          cases hstep
          exact Or.inl ⟨hw, rfl⟩
      | none =>
          rw [hw] at hstep
          by_cases ho : p.IsOwnedType e = true
          · rw [if_pos ho] at hstep
            cases hstep
            exact Or.inr ⟨hw, fun h => TypeRequest.noConfusion h, rfl, rfl⟩
          · rw [if_neg ho] at hstep
            cases hstep
  | tuple es =>
      simp only [Package.applyRequest, Package.GetTupleType] at hstep
      cases hw : alookup p.tupleTypes es with
      | some j =>
          rw [hw] at hstep
          cases hstep
          exact Or.inl ⟨hw, rfl⟩
      | none =>
          rw [hw] at hstep
          by_cases ho : es.all (fun t => p.IsOwnedType (some t)) = true
          · rw [if_pos ho] at hstep
            cases hstep
            exact Or.inr ⟨hw, fun h => TypeRequest.noConfusion h, rfl, rfl⟩
          · rw [if_neg ho] at hstep
            cases hstep
  | func ps ret =>
      simp only [Package.applyRequest, Package.GetFunctionType] at hstep
      cases hw : alookup p.functionTypes (ps, ret) with
      | some j =>
          rw [hw] at hstep
          cases hstep
          exact Or.inl ⟨hw, rfl⟩
      | none =>
          rw [hw] at hstep
          by_cases ho : ps.all (fun t => p.IsOwnedType (some t)) = true
          · rw [if_pos ho] at hstep
            cases hstep
            exact Or.inr ⟨hw, fun h => TypeRequest.noConfusion h, rfl, rfl⟩
          · rw [if_neg ho] at hstep
            cases hstep
  | token =>
      simp only [Package.applyRequest, Package.GetTokenType] at hstep
      cases hstep
      exact Or.inl ⟨rfl, rfl⟩

/-- A request whose key is already cached is a pure hit: it returns the
cached identity and leaves the package unchanged. -/
theorem applyRequest_of_lookup (p : Package) (r : TypeRequest) (i : Nat)
    (h : p.requestLookup r = some i) : p.applyRequest r = some (p, i) := by
  cases r with
  | bits w =>
      simp only [Package.requestLookup] at h
      simp only [Package.applyRequest, Package.GetBitsType]
      rw [h]
  | array s e =>
      simp only [Package.requestLookup] at h
      simp only [Package.applyRequest, Package.GetArrayType]
      rw [h]
  | tuple es =>
      simp only [Package.requestLookup] at h
      simp only [Package.applyRequest, Package.GetTupleType]
      rw [h]
  | func ps ret =>
      simp only [Package.requestLookup] at h
      simp only [Package.applyRequest, Package.GetFunctionType]
      rw [h]
  | token =>
      simp only [Package.requestLookup] at h
      cases h
      rfl

/-- After a successful request, the request's key maps to the returned
identity. -/
theorem applyRequest_lookup_self {p : Package} {r : TypeRequest} {p1 : Package} {i : Nat}
    (hstep : p.applyRequest r = some (p1, i)) : p1.requestLookup r = some i := by
  rcases applyRequest_eq p r p1 i hstep with ⟨hl, rfl⟩ | ⟨hnone, hnt, rfl, rfl⟩
  · exact hl
  · cases r with
    | bits w => simp [Package.requestLookup, Package.insertReq, alookup]
    | array s e => simp [Package.requestLookup, Package.insertReq, alookup]
    | tuple es => simp [Package.requestLookup, Package.insertReq, alookup]
    | func ps ret => simp [Package.requestLookup, Package.insertReq, alookup]
    | token => exact absurd rfl hnt

/-- One request never invalidates an existing cache entry. -/
theorem applyRequest_preserves_lookup {p : Package} {r : TypeRequest} {p1 : Package}
    {i : Nat} {q : TypeRequest} {id : Nat}
    (hstep : p.applyRequest r = some (p1, i)) (hq : p.requestLookup q = some id) :
    p1.requestLookup q = some id := by
  rcases applyRequest_eq p r p1 i hstep with ⟨_, rfl⟩ | ⟨hnone, hnt, hi, rfl⟩
  · exact hq
  · cases r <;> cases q <;>
      simp only [Package.requestLookup, Package.insertReq] at hnone hq ⊢ <;>
      first
        | exact hq
        | exact alookup_of_cons hnone hq

/-- A sequence of requests never invalidates an existing cache entry. -/
theorem applyRequests_preserves_lookup :
    ∀ (rs : List TypeRequest) (p p2 : Package) (q : TypeRequest) (id : Nat),
      p.applyRequests rs = some p2 → p.requestLookup q = some id →
      p2.requestLookup q = some id := by
  intro rs
  induction rs with
  | nil =>
      intro p p2 q id h hq
      simp only [Package.applyRequests] at h
      cases h
      exact hq
  | cons r rs ih =>
      intro p p2 q id h hq
      simp only [Package.applyRequests] at h
      cases hstep : p.applyRequest r with
      | none => rw [hstep] at h; cases h
      | some pr =>
          obtain ⟨p1, i⟩ := pr
          rw [hstep] at h
          exact ih p1 p2 q id h (applyRequest_preserves_lookup hstep hq)

theorem getElem_append_singleton {A : List PTy} {x t : PTy} {i : Nat}
    (h : (A ++ [x])[i]? = some t) : A[i]? = some t ∨ (i = A.length ∧ t = x) := by
  rcases Nat.lt_or_ge i A.length with hl | hr
  · left
    rwa [List.getElem?_append_left hl] at h
  · right
    rw [List.getElem?_append_right hr] at h
    cases hd : i - A.length with
    | zero =>
        rw [hd] at h
        simp at h
        exact ⟨by omega, h.symm⟩
    | succ m =>
        rw [hd] at h
        simp at h

theorem keyLookup_insertReq_pres {p : Package} {t : PTy} (r : TypeRequest)
    (h : (p.keyLookup t).isSome = true) : ((p.insertReq r).keyLookup t).isSome = true := by
  cases r <;> cases t <;>
    simp only [Package.keyLookup, Package.insertReq] at h ⊢ <;>
    first
      | exact h
      | exact alookup_isSome_cons _ _ h
      | rfl

theorem keyLookup_insertReq_self {p : Package} {r : TypeRequest} (hnt : r ≠ .token) :
    ((p.insertReq r).keyLookup (Package.requestShape r)).isSome = true := by
  cases r with
  | token => exact absurd rfl hnt
  | bits w => simp [Package.keyLookup, Package.insertReq, Package.requestShape, alookup]
  | array s e => simp [Package.keyLookup, Package.insertReq, Package.requestShape, alookup]
  | tuple es => simp [Package.keyLookup, Package.insertReq, Package.requestShape, alookup]
  | func ps ret => simp [Package.keyLookup, Package.insertReq, Package.requestShape, alookup]

theorem keyLookup_requestShape {p : Package} {r : TypeRequest} (hnt : r ≠ .token) :
    p.keyLookup (Package.requestShape r) = p.requestLookup r := by
  cases r <;> first | rfl | exact absurd rfl hnt

theorem insertReq_arena {p : Package} {r : TypeRequest} (hnt : r ≠ .token) :
    (p.insertReq r).arena = p.arena ++ [Package.requestShape r] := by
  cases r <;> first | rfl | exact absurd rfl hnt

theorem Inv_preserved {p p1 : Package} {r : TypeRequest} {i : Nat}
    (hInv : Package.Inv p) (hstep : p.applyRequest r = some (p1, i)) :
    Package.Inv p1 := by
  obtain ⟨hc, hd⟩ := hInv
  rcases applyRequest_eq p r p1 i hstep with ⟨_, rfl⟩ | ⟨hnone, hnt, hi, rfl⟩
  · exact ⟨hc, hd⟩
  · have harena := insertReq_arena (p := p) hnt
    constructor
    · intro i' t hent
      rw [harena] at hent
      rcases getElem_append_singleton hent with hold | ⟨hieq, hteq⟩
      · exact keyLookup_insertReq_pres r (hc i' t hold)
      · subst hteq
        exact keyLookup_insertReq_self hnt
    · intro i' j' t hi' hj'
      rw [harena] at hi' hj'
      rcases getElem_append_singleton hi' with hio | ⟨hieq, hteq⟩
      · rcases getElem_append_singleton hj' with hjo | ⟨hjeq, hteq2⟩
        · exact hd _ _ _ hio hjo
        · subst hteq2
          have := hc i' _ hio
          rw [keyLookup_requestShape hnt, hnone] at this
          simp at this
      · rcases getElem_append_singleton hj' with hjo | ⟨hjeq, _⟩
        · subst hteq
          have := hc j' _ hjo
          rw [keyLookup_requestShape hnt, hnone] at this
          simp at this
        · omega

theorem Inv_init : Package.Inv initPackage := by
  constructor
  · intro i t h
    cases i with
    | zero =>
        simp only [initPackage] at h
        simp at h
        subst h
        simp [Package.keyLookup, initPackage]
    | succ n => simp [initPackage] at h
  · intro i j t hi hj
    cases i with
    | zero =>
        cases j with
        | zero => rfl
        | succ m => simp [initPackage] at hj
    | succ n => simp [initPackage] at hi

theorem applyRequests_inv :
    ∀ (rs : List TypeRequest) (p p2 : Package),
      Package.Inv p → p.applyRequests rs = some p2 → Package.Inv p2 := by
  intro rs
  induction rs with
  | nil =>
      intro p p2 h hr
      simp only [Package.applyRequests] at hr
      cases hr
      exact h
  | cons r rs ih =>
      intro p p2 h hr
      simp only [Package.applyRequests] at hr
      cases hstep : p.applyRequest r with
      | none => rw [hstep] at hr; cases hr
      | some pr =>
          obtain ⟨p1, i⟩ := pr
          rw [hstep] at hr
          exact ih p1 p2 (Inv_preserved h hstep) hr

/-- C8: type interning is idempotent on structural keys — after a getter
returns an identity for a key, any later request with the same key (however
many other requests intervene) returns the identical instance without
changing the interner — and for every reachable interner state, identity
equality coincides with structural equality: no two distinct arena indices
hold the same instance shape. -/
theorem type_interning_idempotent :
    (∀ (p : Package) (r : TypeRequest) (p1 : Package) (id1 : Nat)
        (rs : List TypeRequest) (p2 : Package),
        p.applyRequest r = some (p1, id1) → p1.applyRequests rs = some p2 →
        p2.applyRequest r = some (p2, id1)) ∧
    (∀ p : Package, Package.Reachable p →
        ∀ (i j : Nat) (t : PTy), p.arena[i]? = some t → p.arena[j]? = some t → i = j) := by
  constructor
  · intro p r p1 id1 rs p2 hstep hrs
    exact applyRequest_of_lookup _ _ _
      (applyRequests_preserves_lookup rs p1 p2 r id1 hrs (applyRequest_lookup_self hstep))
  · rintro p ⟨rs, hrs⟩ i j t hi hj
    exact (applyRequests_inv rs initPackage p Inv_init hrs).2 i j t hi hj

/-- C8 witness: requesting bits[8] on a fresh package, then bits[16], then
bits[8] again returns the identical instance (arena index 1) and leaves the
state unchanged; and on the resulting reachable state, the unique arena
index of shape bits[8] is equal to itself. -/
theorem type_interning_idempotent_witness :
    (Package.applyRequest
        { arena := [PTy.token, PTy.bits 8, PTy.bits 16]
          bitCountToType := [(16, 2), (8, 1)]
          arrayTypes := []
          tupleTypes := []
          functionTypes := []
          tokenTypeId := 0 }
        (TypeRequest.bits 8)
      = some ({ arena := [PTy.token, PTy.bits 8, PTy.bits 16]
                bitCountToType := [(16, 2), (8, 1)]
                arrayTypes := []
                tupleTypes := []
                functionTypes := []
                tokenTypeId := 0 }, 1)) ∧
    (1 : Nat) = 1 :=
  ⟨type_interning_idempotent.1 initPackage (TypeRequest.bits 8) _ 1
      [TypeRequest.bits 16] _ rfl rfl,
   type_interning_idempotent.2
      { arena := [PTy.token, PTy.bits 8, PTy.bits 16]
        bitCountToType := [(16, 2), (8, 1)]
        arrayTypes := []
        tupleTypes := []
        functionTypes := []
        tokenTypeId := 0 }
      ⟨[TypeRequest.bits 8, TypeRequest.bits 16], rfl⟩ 1 1 (PTy.bits 8) rfl rfl⟩

end xls
